import Mathlib

/-!
Verification of the object decoder of a small git-inspection tool written in Go.

The embedding models the decompressed object byte stream as a `List Nat`
(one entry per byte).  The Go code reads the stream one byte at a time via
`bufio.Scanner`; every `panic` / `log.Fatal` (fatal, unrecoverable abort) is
modelled by `Option.none`.  The functions below mirror, one for one, the Go
functions of the final iteration of the repository (`scanSingleByte`,
`scanBytesUntilDelimiter`, `scanCountBytes`, `parseObjectHeader`,
`printCommitContent`, `printBlobContent`, `printTreeContent`,
`printObjectFileContent`).  Printing to standard output is modelled by
returning the printed bytes.
-/

namespace GitScratch

/-- A decompressed object stream: the list of its bytes. -/
abbrev ByteStream := List Nat

/-- Bytes of an ASCII string literal (used for the fixed strings the Go code
prints and compares against). -/
def strBytes (s : String) : List Nat := s.toList.map Char.toNat

/-- Go: `const ObjectShaLength = 20`. -/
def ObjectShaLength : Nat := 20

/-- Go: `const TruncatedSize = 3072`. -/
def TruncatedSize : Int := 3072

/-- Go: `type objectHeader struct { objectType string; length int }`. -/
structure objectHeader where
  objectType : List Nat
  length : Int
deriving DecidableEq

/-- One record emitted by the tree decoder (`fileMode`, `filename`, hex `SHA`). -/
structure TreeEntry where
  mode : List Nat
  name : List Nat
  hexHash : List Nat
deriving DecidableEq

/-- Go `scanSingleByte`: reads one byte.  On end of stream it panics when
`throwOnEOF` (modelled as `none`), otherwise returns `(0, true)` signalling
clean EOF.  The underlying stream is assumed error-free, as in the spec. -/
def scanSingleByte (s : ByteStream) (throwOnEOF : Bool) : Option (Nat × Bool × ByteStream) :=
  match s with
  | [] => if throwOnEOF then none else some (0, true, [])
  | b :: rest => some (b, false, rest)

/-- Go `scanBytesUntilDelimiter`: accumulates bytes until the delimiter is read
(the delimiter is included in the result).  On EOF before the delimiter it
panics when `throwOnEOF`, otherwise returns what was accumulated so far.
The Go loop calls `scanSingleByte` once per iteration; the recursion here
consumes the same single byte per step. -/
def scanBytesUntilDelimiter (s : ByteStream) (delimiter : Nat) (throwOnEOF : Bool) :
    Option (List Nat × ByteStream) :=
  match s with
  | [] => if throwOnEOF then none else some ([], [])
  | b :: rest =>
    if b = delimiter then some ([b], rest)
    else
      match scanBytesUntilDelimiter rest delimiter throwOnEOF with
      | none => none
      | some (acc, rest2) => some (b :: acc, rest2)

/-- Helper for `scanCountBytes`: reads exactly `n` bytes, panicking (`none`) on
premature end of stream (the Go loop hard-codes `throwOnEOF = true` in its
`scanSingleByte` call). -/
def scanCountBytesAux (s : ByteStream) (n : Nat) : Option (List Nat × ByteStream) :=
  match n, s with
  | 0, s => some ([], s)
  | _ + 1, [] => none
  | n + 1, b :: rest =>
    match scanCountBytesAux rest n with
    | none => none
    | some (acc, rest2) => some (b :: acc, rest2)

/-- Go `scanCountBytes`: `for i := 1; i <= byteCount; i++` reads one byte per
iteration with `scanSingleByte(bufScanner, true)` — the `throwOnEOF` parameter
is accepted but never used.  A non-positive `byteCount` runs the loop zero
times (`Int.toNat` of a negative is `0`). -/
def scanCountBytes (s : ByteStream) (byteCount : Int) (throwOnEOF : Bool) :
    Option (List Nat × ByteStream) :=
  scanCountBytesAux s byteCount.toNat

/-- Go `strings.Split(s, " ")` at byte level: split on every occurrence of
`sep`, keeping empty fields (`Split("", sep)` is `[""]`). -/
def splitOnByte (sep : Nat) : List Nat → List (List Nat)
  | [] => [[]]
  | b :: rest =>
    let r := splitOnByte sep rest
    if b = sep then [] :: r
    else
      match r with
      | [] => [[b]]
      | x :: xs => (b :: x) :: xs

/-- Whether a byte is an ASCII decimal digit. -/
def isDigitByte (b : Nat) : Bool := decide (48 ≤ b) && decide (b ≤ 57)

/-- The value of a decimal digit string (the fold `strconv.Atoi` performs). -/
def decimalValue (ds : List Nat) : Nat := ds.foldl (fun acc b => acc * 10 + (b - 48)) 0

/-- Smallest Go `int` (int64) value. -/
def int64Min : Int := -(2 ^ 63)

/-- Largest Go `int` (int64) value. -/
def int64Max : Int := 2 ^ 63 - 1

/-- Go `strconv.Atoi` on a byte string: an optional leading `'+'`/`'-'`
followed by one or more decimal digits, erroring (`none`) on an empty digit
string, a non-digit byte, or 64-bit overflow. -/
def atoi (bs : List Nat) : Option Int :=
  match bs with
  | [] => none
  | b0 :: rest =>
    let digits := if b0 = 43 || b0 = 45 then rest else b0 :: rest
    if digits.isEmpty then none
    else if digits.all isDigitByte then
      let n : Int := decimalValue digits
      let v : Int := if b0 = 45 then -n else n
      if int64Min ≤ v ∧ v ≤ int64Max then some v else none
    else none

/-- Go `parseObjectHeader`: read until NUL (panicking on EOF), strip the
trailing NUL, split the rest on `' '`, require exactly two fields, parse the
second with `Atoi` (panicking on error). -/
def parseObjectHeader (s : ByteStream) : Option (objectHeader × ByteStream) :=
  match scanBytesUntilDelimiter s 0 true with
  | none => none
  | some (headerBytes, rest) =>
    let headerString := headerBytes.dropLast
    let headerComponents := splitOnByte 32 headerString
    if headerComponents.length = 2 then
      match atoi (headerComponents.getD 1 []) with
      | none => none
      | some objectLen => some (⟨headerComponents.getD 0 [], objectLen⟩, rest)
    else none

/-- Go `printCommitContent`: read exactly `byteCount` bytes (fatal on EOF) and
print them verbatim.  Returns the printed bytes and the remaining stream. -/
def printCommitContent (s : ByteStream) (byteCount : Int) : Option (List Nat × ByteStream) :=
  match scanCountBytes s byteCount true with
  | none => none
  | some (fileMetadataBytes, rest) => some (fileMetadataBytes, rest)

/-- Bytes appended by `printBlobContent` when the declared length exceeds
`TruncatedSize`: Go `fmt.Printf("\n\n(... truncated to 3KB)\n")`. -/
def truncNotice : List Nat := strBytes "\n\n(... truncated to 3KB)\n"

/-- Go `printBlobContent`: read `min(byteCount, TruncatedSize)` bytes (fatal on
EOF), print them, then print the truncation notice iff
`byteCount > TruncatedSize`.  Returns printed bytes and remaining stream. -/
def printBlobContent (s : ByteStream) (byteCount : Int) : Option (List Nat × ByteStream) :=
  let count : Int := if byteCount > TruncatedSize then TruncatedSize else byteCount
  match scanCountBytes s count true with
  | none => none
  | some (fileMetadataBytes, rest) =>
    if byteCount > TruncatedSize then some (fileMetadataBytes ++ truncNotice, rest)
    else some (fileMetadataBytes, rest)

/-- One lowercase hex digit, as in Go `encoding/hex`. -/
def hexDigit (n : Nat) : Nat := if n < 10 then 48 + n else 87 + n

/-- Go `hex.EncodeToString`: two lowercase hex characters per byte
(high nibble first). -/
def hexEncode (bs : List Nat) : List Nat :=
  (bs.map (fun b => [hexDigit (b / 16), hexDigit (b % 16)])).flatten

/-- A successful `scanBytesUntilDelimiter` splits the stream into the returned
segment and the remainder. -/
theorem scanBytesUntilDelimiter_eq_append (s : ByteStream) (d : Nat) (t : Bool)
    (seg rest : List Nat) (h : scanBytesUntilDelimiter s d t = some (seg, rest)) :
    s = seg ++ rest := by
  induction s generalizing seg with
  | nil =>
    simp only [scanBytesUntilDelimiter] at h
    cases t <;> simp_all
  | cons b bs ih =>
    simp only [scanBytesUntilDelimiter] at h
    by_cases hb : b = d
    · simp [hb] at h
      simp [← h.1, ← h.2, hb]
    · simp only [hb, if_false] at h
      cases hrec : scanBytesUntilDelimiter bs d t with
      | none => rw [hrec] at h; simp at h
      | some p =>
        rw [hrec] at h
        cases p with
        | mk acc rest2 =>
          simp at h
          cases h with
          | intro h1 h2 =>
            subst h1
            subst h2
            simp [ih _ hrec]

/-- A successful `scanCountBytesAux` returns exactly `n` bytes and splits the
stream into them and the remainder. -/
theorem scanCountBytesAux_eq_append (s : ByteStream) (n : Nat)
    (acc rest : List Nat) (h : scanCountBytesAux s n = some (acc, rest)) :
    s = acc ++ rest ∧ acc.length = n := by
  induction n generalizing s acc with
  | zero => simp only [scanCountBytesAux] at h; simp_all
  | succ m ih =>
    cases s with
    | nil => simp [scanCountBytesAux] at h
    | cons b bs =>
      simp only [scanCountBytesAux] at h
      cases hrec : scanCountBytesAux bs m with
      | none => rw [hrec] at h; simp at h
      | some p =>
        rw [hrec] at h
        cases p with
        | mk acc2 rest2 =>
          simp at h
          cases h with
          | intro h1 h2 =>
            subst h1
            subst h2
            have := ih bs acc2 hrec
            simp [this.1, this.2]

/-- Go `printTreeContent`: loop reading `"<mode> <name>\0"` segments with
`scanBytesUntilDelimiter(…, 0, false)`; an empty result ends the loop cleanly.
A nonempty segment must end in NUL and split into exactly two fields on `' '`
(otherwise panic, modelled `none`), then exactly `ObjectShaLength = 20` raw
bytes are read (fatal on EOF) and hex-encoded.  Returns the records printed
before termination or failure, and `some remainingStream` on clean
termination / `none` on panic. -/
def printTreeContent (s : ByteStream) : List TreeEntry × Option ByteStream :=
  match h : scanBytesUntilDelimiter s 0 false with
  | none => ([], none)
  | some (fileMetadataBytes, rest) =>
    if hseg : fileMetadataBytes = [] then ([], some rest)
    else if fileMetadataBytes.getLast? ≠ some 0 then ([], none)
    else
      let fileMetadataString := fileMetadataBytes.dropLast
      let fileMetadataComponents := splitOnByte 32 fileMetadataString
      if fileMetadataComponents.length ≠ 2 then ([], none)
      else
        match h2 : scanCountBytes rest (ObjectShaLength : Int) true with
        | none => ([], none)
        | some (objectShaBytes, rest2) =>
          let entry : TreeEntry :=
            ⟨fileMetadataComponents.getD 0 [], fileMetadataComponents.getD 1 [],
              hexEncode objectShaBytes⟩
          let p := printTreeContent rest2
          (entry :: p.1, p.2)
termination_by s.length
decreasing_by
  have hs := scanBytesUntilDelimiter_eq_append s 0 false fileMetadataBytes rest h
  have hr := scanCountBytesAux_eq_append rest (ObjectShaLength : Int).toNat
    objectShaBytes rest2 h2
  have h1 : s.length = fileMetadataBytes.length + rest.length := by
    rw [hs]; simp
  have h2 : rest.length = objectShaBytes.length + rest2.length := by
    rw [hr.1]; simp
  have h3 : 0 < fileMetadataBytes.length := List.length_pos.mpr hseg
  omega

/-- The line Go `printTreeContent` prints for one entry:
`fmt.Printf("fileMode: %s, filename: %s, SHA: %s\n", …)`. -/
def renderTreeEntry (e : TreeEntry) : List Nat :=
  strBytes "fileMode: " ++ e.mode ++ strBytes ", filename: " ++ e.name ++
    strBytes ", SHA: " ++ e.hexHash ++ [10]

/-- All lines printed by the tree decoder, in emission order. -/
def renderTreeEntries (es : List TreeEntry) : List Nat :=
  (es.map renderTreeEntry).flatten

/-- Decimal digits of a natural number, most significant first. -/
def natToDecimalBytes (n : Nat) : List Nat :=
  if h : n < 10 then [48 + n]
  else natToDecimalBytes (n / 10) ++ [48 + n % 10]
decreasing_by
  exact Nat.div_lt_self (by omega) (by omega)

/-- Go `%d` on an `int`: decimal digits, `'-'`-prefixed when negative. -/
def intToDecimalBytes (v : Int) : List Nat :=
  if v < 0 then 45 :: natToDecimalBytes (-v).toNat else natToDecimalBytes v.toNat

/-- The line Go `printObjectFileContent` always prints right after parsing the
header: `fmt.Printf("Type: %s, len: %d\n", …)`. -/
def headerSummary (h : objectHeader) : List Nat :=
  strBytes "Type: " ++ h.objectType ++ strBytes ", len: " ++
    intToDecimalBytes h.length ++ [10]

/-- Go `fmt.Println("Parsing this tag-type not yet supported")`. -/
def unsupportedNotice : List Nat :=
  strBytes "Parsing this tag-type not yet supported" ++ [10]

/-- Go `printObjectFileContent`: parse the header, print the summary line,
then dispatch on the object type.  The result is the full printed output
(everything printed before a potential fatal abort) together with
`some remainingStream` on success / `none` on a fatal abort. -/
def printObjectFileContent (s : ByteStream) : List Nat × Option ByteStream :=
  match parseObjectHeader s with
  | none => ([], none)
  | some (header, rest) =>
    let summary := headerSummary header
    if header.objectType = strBytes "tree" then
      let p := printTreeContent rest
      (summary ++ renderTreeEntries p.1, p.2)
    else if header.objectType = strBytes "blob" then
      match printBlobContent rest header.length with
      | none => (summary, none)
      | some (out, rest2) => (summary ++ out, some rest2)
    else if header.objectType = strBytes "commit" then
      match printCommitContent rest header.length with
      | none => (summary, none)
      | some (out, rest2) => (summary ++ out, some rest2)
    else (summary ++ unsupportedNotice, some rest)

/-- Reading until a delimiter consumes exactly the delimiter-free part plus the
delimiter, whatever `throwOnEOF` is. -/
theorem scanUntilDelim_hit (pre rest : List Nat) (d : Nat) (t : Bool)
    (h : ∀ b ∈ pre, b ≠ d) :
    scanBytesUntilDelimiter (pre ++ d :: rest) d t = some (pre ++ [d], rest) := by
  induction pre with
  | nil => simp [scanBytesUntilDelimiter]
  | cons a pre' ih =>
    have ha : a ≠ d := h a (by simp)
    have h' : ∀ b ∈ pre', b ≠ d := fun b hb => h b (by simp [hb])
    simp only [List.cons_append, scanBytesUntilDelimiter, ha, if_false, List.append_eq, ih h']

/-- With `throwOnEOF = false`, a stream free of the delimiter is returned whole
at clean end of stream. -/
theorem scanUntilDelim_clean_eof (s : List Nat) (d : Nat)
    (h : ∀ b ∈ s, b ≠ d) :
    scanBytesUntilDelimiter s d false = some (s, []) := by
  induction s with
  | nil => simp [scanBytesUntilDelimiter]
  | cons a s' ih =>
    have ha : a ≠ d := h a (by simp)
    have h' : ∀ b ∈ s', b ≠ d := fun b hb => h b (by simp [hb])
    simp only [scanBytesUntilDelimiter, ha, if_false, List.append_eq, ih h']

/-- Reading exactly the length of a known prefix returns that prefix and the
rest of the stream. -/
theorem scanCountBytesAux_exact (body rest : List Nat) :
    scanCountBytesAux (body ++ rest) body.length = some (body, rest) := by
  induction body with
  | nil => simp [scanCountBytesAux]
  | cons b body' ih => simp [scanCountBytesAux, ih]

/-- Reading more bytes than the stream holds aborts (`none`). -/
theorem scanCountBytesAux_short (s : List Nat) (n : Nat) (h : s.length < n) :
    scanCountBytesAux s n = none := by
  induction n generalizing s with
  | zero => omega
  | succ m ih =>
    cases s with
    | nil => simp [scanCountBytesAux]
    | cons b bs =>
      have : bs.length < m := by simp at h; omega
      simp [scanCountBytesAux, ih bs this]

/-- Splitting a separator-free string yields a single field. -/
theorem splitOnByte_no_sep (sep : Nat) (l : List Nat) (h : ∀ b ∈ l, b ≠ sep) :
    splitOnByte sep l = [l] := by
  induction l with
  | nil => simp [splitOnByte]
  | cons a l' ih =>
    have ha : a ≠ sep := h a (by simp)
    have h' : ∀ b ∈ l', b ≠ sep := fun b hb => h b (by simp [hb])
    simp [splitOnByte, ha, ih h']

/-- Splitting at the first separator occurrence peels off the first field. -/
theorem splitOnByte_cons_sep (sep : Nat) (a b : List Nat)
    (h : ∀ x ∈ a, x ≠ sep) :
    splitOnByte sep (a ++ sep :: b) = a :: splitOnByte sep b := by
  induction a with
  | nil => simp [splitOnByte]
  | cons x a' ih =>
    have hx : x ≠ sep := h x (by simp)
    have h' : ∀ y ∈ a', y ≠ sep := fun y hy => h y (by simp [hy])
    simp only [List.cons_append, splitOnByte, hx, if_false, ih h']
    cases hsplit : splitOnByte sep (a' ++ sep :: b) with
    | nil => rw [ih h'] at hsplit; simp at hsplit
    | cons z zs => rw [ih h'] at hsplit; simp at hsplit; simp [hsplit.1, hsplit.2]

/-- The number of fields `splitOnByte` yields is one more than the number of
separators in the string. -/
theorem splitOnByte_length (sep : Nat) (l : List Nat) :
    (splitOnByte sep l).length = l.count sep + 1 := by
  induction l with
  | nil => simp [splitOnByte]
  | cons a l' ih =>
    by_cases ha : a = sep
    · simp [splitOnByte, ha, List.count_cons, ih]
    · cases hsplit : splitOnByte sep l' with
      | nil => rw [hsplit] at ih; simp at ih
      | cons z zs =>
        rw [hsplit] at ih
        simp only [splitOnByte, ha, if_false, hsplit]
        simp at ih ⊢
        simpa [List.count_cons, ha] using ih

/-- `atoi` on a nonempty, in-range digit string returns its decimal value. -/
theorem atoi_digits (ds : List Nat) (h1 : ds ≠ []) (h2 : ∀ b ∈ ds, isDigitByte b)
    (h3 : (decimalValue ds : Int) ≤ int64Max) :
    atoi ds = some (decimalValue ds) := by
  cases ds with
  | nil => exact absurd rfl h1
  | cons b0 rest =>
    have hb0 : isDigitByte b0 = true := h2 b0 (by simp)
    have hb0' : 48 ≤ b0 ∧ b0 ≤ 57 := by
      simpa [isDigitByte] using hb0
    have h43 : ¬(b0 = 43) := by omega
    have h45 : ¬(b0 = 45) := by omega
    have hall : (b0 :: rest).all isDigitByte = true := by
      rw [List.all_eq_true]; exact h2
    have hmin : int64Min ≤ (decimalValue (b0 :: rest) : Int) := by
      have : (0 : Int) ≤ (decimalValue (b0 :: rest) : Int) := Int.ofNat_nonneg _
      have hm : int64Min ≤ 0 := by unfold int64Min; omega
      omega
    simp [atoi, h43, h45, hall, hmin, h3]

/-- `atoi` on `'-'` followed by a nonempty, in-range digit string returns the
negated decimal value — negative numbers parse successfully. -/
theorem atoi_neg_digits (ds : List Nat) (h1 : ds ≠ []) (h2 : ∀ b ∈ ds, isDigitByte b)
    (h3 : (decimalValue ds : Int) ≤ 2 ^ 63) :
    atoi (45 :: ds) = some (-(decimalValue ds : Int)) := by
  have hall : ds.all isDigitByte = true := by
    rw [List.all_eq_true]; exact h2
  have hnn : (0 : Int) ≤ (decimalValue ds : Int) := Int.ofNat_nonneg _
  have hmin : int64Min ≤ -(decimalValue ds : Int) := by unfold int64Min; omega
  have hmax : -(decimalValue ds : Int) ≤ int64Max := by unfold int64Max; omega
  simp [atoi, h1, hall, hmin, hmax]

/-- The header decoder on a well-formed header `"<type> <digits>\0"` followed
by the body: returns the type and the digits' decimal value, and leaves the
stream positioned at the body. -/
theorem parseObjectHeader_spec (ty ds : List Nat) (rest : ByteStream)
    (hty : ∀ b ∈ ty, b ≠ 0 ∧ b ≠ 32)
    (hds1 : ds ≠ []) (hds2 : ∀ b ∈ ds, isDigitByte b)
    (hds3 : (decimalValue ds : Int) ≤ int64Max) :
    parseObjectHeader (ty ++ 32 :: ds ++ 0 :: rest) =
      some (⟨ty, (decimalValue ds : Int)⟩, rest) := by
  have hds0 : ∀ b ∈ ds, b ≠ 0 ∧ b ≠ 32 := by
    intro b hb
    have := hds2 b hb
    have : 48 ≤ b ∧ b ≤ 57 := by simpa [isDigitByte] using this
    omega
  have hpre : ∀ b ∈ ty ++ 32 :: ds, b ≠ 0 := by
    intro b hb
    rcases List.mem_append.mp hb with h | h
    · exact (hty b h).1
    · rcases List.mem_cons.mp h with h | h
      · omega
      · exact (hds0 b h).1
  have hscan := scanUntilDelim_hit (ty ++ 32 :: ds) rest 0 true hpre
  have hsplit : splitOnByte 32 (ty ++ 32 :: ds) = [ty, ds] := by
    rw [splitOnByte_cons_sep 32 ty ds (fun x hx => (hty x hx).2),
      splitOnByte_no_sep 32 ds (fun x hx => (hds0 x hx).2)]
  have hstream : ty ++ 32 :: ds ++ 0 :: rest = (ty ++ 32 :: ds) ++ 0 :: rest := by simp
  rw [parseObjectHeader, hstream, hscan]
  simp only [List.dropLast_concat, hsplit]
  simp [atoi_digits ds hds1 hds2 hds3]

/-- The header decoder panics when the pre-NUL segment does not contain
exactly one space, or when its second field does not `Atoi`-parse. -/
theorem parseObjectHeader_fail (content : List Nat) (rest : ByteStream)
    (hc : ∀ b ∈ content, b ≠ 0)
    (hbad : content.count 32 ≠ 1 ∨ atoi ((splitOnByte 32 content).getD 1 []) = none) :
    parseObjectHeader (content ++ 0 :: rest) = none := by
  have hscan := scanUntilDelim_hit content rest 0 true hc
  rw [parseObjectHeader, hscan]
  simp only [List.dropLast_concat]
  rcases hbad with hbad | hbad
  · have : (splitOnByte 32 content).length ≠ 2 := by
      rw [splitOnByte_length]; omega
    simp [this]
  · by_cases hlen : (splitOnByte 32 content).length = 2
    · have h1 : (1 : Nat) < (splitOnByte 32 content).length := by omega
      rw [List.getD_eq_getElem _ _ h1] at hbad
      simp [hlen, hbad]
    · simp [hlen]

/-- The header decoder on a segment `"<ty> <f>\0"` with exactly one space:
returns `⟨ty, v⟩` exactly when `atoi f = some v`, and panics when `atoi`
errors. -/
theorem parseObjectHeader_two_fields (ty f : List Nat) (rest : ByteStream)
    (hty : ∀ b ∈ ty, b ≠ 0 ∧ b ≠ 32) (hf : ∀ b ∈ f, b ≠ 0 ∧ b ≠ 32) :
    parseObjectHeader (ty ++ 32 :: f ++ 0 :: rest) =
      match atoi f with
      | none => none
      | some v => some (⟨ty, v⟩, rest) := by
  have hpre : ∀ b ∈ ty ++ 32 :: f, b ≠ 0 := by
    intro b hb
    rcases List.mem_append.mp hb with h | h
    · exact (hty b h).1
    · rcases List.mem_cons.mp h with h | h
      · omega
      · exact (hf b h).1
  have hscan := scanUntilDelim_hit (ty ++ 32 :: f) rest 0 true hpre
  have hsplit : splitOnByte 32 (ty ++ 32 :: f) = [ty, f] := by
    rw [splitOnByte_cons_sep 32 ty f (fun x hx => (hty x hx).2),
      splitOnByte_no_sep 32 f (fun x hx => (hf x hx).2)]
  have hstream : ty ++ 32 :: f ++ 0 :: rest = (ty ++ 32 :: f) ++ 0 :: rest := by simp
  rw [parseObjectHeader, hstream, hscan]
  simp only [List.dropLast_concat, hsplit]
  simp

/-- When the declared length is at most the cap, the blob decoder returns the
whole body and no notice. -/
theorem printBlobContent_le (body rest : ByteStream) (N : Int)
    (hN : N = body.length) (h : N ≤ TruncatedSize) :
    printBlobContent (body ++ rest) N = some (body, rest) := by
  have hgt : ¬(N > TruncatedSize) := by omega
  have htn : N.toNat = body.length := by omega
  unfold printBlobContent scanCountBytes
  simp only [hgt, if_false, htn, scanCountBytesAux_exact]

/-- When the declared length exceeds the cap, the blob decoder reads exactly
`TruncatedSize = 3072` bytes, appends the truncation notice, and leaves the
rest of the stream unread. -/
theorem printBlobContent_gt (body rest : ByteStream) (N : Int)
    (hbody : body.length = 3072) (h : N > TruncatedSize) :
    printBlobContent (body ++ rest) N = some (body ++ truncNotice, rest) := by
  unfold printBlobContent scanCountBytes
  simp only [h, if_true]
  have htn : TruncatedSize.toNat = body.length := by
    rw [hbody]; rfl
  simp only [htn, scanCountBytesAux_exact]

/-- C1: for a blob of declared length `N` with the `N` body bytes on the
stream, `N ≤ 3072` renders exactly the body with no truncation notice, and
`N > 3072` renders exactly the first 3072 body bytes followed by the
truncation notice. -/
theorem claim_C1 (body rest : ByteStream) (N : Int) (hN : N = body.length) :
    (N ≤ 3072 → printBlobContent (body ++ rest) N = some (body, rest)) ∧
    (N > 3072 → printBlobContent (body ++ rest) N =
      some (body.take 3072 ++ truncNotice, body.drop 3072 ++ rest)) := by
  constructor
  · intro h
    exact printBlobContent_le body rest N hN h
  · intro h
    have hlen : (body.take 3072).length = 3072 := by
      rw [List.length_take]
      omega
    have hgt := printBlobContent_gt (body.take 3072) (body.drop 3072 ++ rest) N hlen h
    rw [← List.append_assoc, List.take_append_drop] at hgt
    exact hgt

/-- Witness for C1 at the spec's scenario `b"blob 5\0hello"`: body `"hello"`,
declared length 5, rendered whole with no notice. -/
theorem claim_C1_witness :
    printBlobContent (strBytes "hello" ++ []) 5 = some (strBytes "hello", []) :=
  (claim_C1 (strBytes "hello") [] 5 (by decide)).1 (by decide)

/-- C2 counterexample: for a blob of declared length 3073, the text appended
after the 3072 rendered bytes is `"\n\n(... truncated to 3KB)\n"`, which is
not the string `"(... truncated to 3KB)"` the claim states. -/
theorem claim_C2_counterexample :
    printBlobContent (List.replicate 3072 97 ++ [98]) 3073 =
      some (List.replicate 3072 97 ++ truncNotice, [98]) ∧
    truncNotice ≠ strBytes "(... truncated to 3KB)" := by
  constructor
  · exact printBlobContent_gt (List.replicate 3072 97) [98] 3073 (by rw [List.length_replicate]) (by decide)
  · decide

/-- C2 (amended): for every blob whose declared length exceeds 3072, the text
appended after the rendered content is exactly
`"\n\n(... truncated to 3KB)\n"` — the fixed notice `"(... truncated to 3KB)"`
preceded by two newlines and followed by one. -/
theorem claim_C2 (body rest : ByteStream) (N : Int)
    (h1 : body.length = 3072) (h2 : N > 3072) :
    printBlobContent (body ++ rest) N = some (body ++ truncNotice, rest) ∧
    truncNotice = strBytes "\n\n(... truncated to 3KB)\n" :=
  ⟨printBlobContent_gt body rest N h1 h2, rfl⟩

/-- Witness for C2 (amended) at declared length 4000 with a 3072-byte body
prefix on the stream. -/
theorem claim_C2_witness :
    printBlobContent (List.replicate 3072 0 ++ [1]) 4000 =
      some (List.replicate 3072 0 ++ truncNotice, [1]) ∧
    truncNotice = strBytes "\n\n(... truncated to 3KB)\n" :=
  claim_C2 (List.replicate 3072 0) [1] 4000 (by rw [List.length_replicate]) (by decide)

/-- C3 counterexample: on the header `"blob -5\0"` the decoder does not fail —
`strconv.Atoi` accepts the sign, and the header `{blob, -5}` is returned. -/
theorem claim_C3_counterexample :
    parseObjectHeader (strBytes "blob -5" ++ 0 :: strBytes "xy") =
      some (⟨strBytes "blob", -5⟩, strBytes "xy") := by decide

/-- C3 (amended): the header decoder accepts a negative second field: for any
digit string within `int64` range, the header `"<ty> -<digits>\0"` parses to
the record with the negative length, with no fatal failure.  (It fails only
when the second field does not `Atoi`-parse as a signed integer at all.) -/
theorem claim_C3 (ty ds : List Nat) (rest : ByteStream)
    (hty : ∀ b ∈ ty, b ≠ 0 ∧ b ≠ 32)
    (hds1 : ds ≠ []) (hds2 : ∀ b ∈ ds, isDigitByte b)
    (hds3 : (decimalValue ds : Int) ≤ 2 ^ 63) :
    parseObjectHeader (ty ++ 32 :: (45 :: ds) ++ 0 :: rest) =
      some (⟨ty, -(decimalValue ds : Int)⟩, rest) := by
  have hds0 : ∀ b ∈ ds, b ≠ 0 ∧ b ≠ 32 := by
    intro b hb
    have h := hds2 b hb
    have : 48 ≤ b ∧ b ≤ 57 := by simpa [isDigitByte] using h
    omega
  have hf : ∀ b ∈ (45 :: ds), b ≠ 0 ∧ b ≠ 32 := by
    intro b hb
    rcases List.mem_cons.mp hb with h | h
    · omega
    · exact hds0 b h
  rw [parseObjectHeader_two_fields ty (45 :: ds) rest hty hf,
    atoi_neg_digits ds hds1 hds2 hds3]

/-- Witness for C3 (amended) at `"blob -5\0"`. -/
theorem claim_C3_witness :
    parseObjectHeader (strBytes "blob" ++ 32 :: (45 :: strBytes "5") ++ 0 :: []) =
      some (⟨strBytes "blob", -(decimalValue (strBytes "5") : Int)⟩, []) :=
  claim_C3 (strBytes "blob") (strBytes "5") []
    (by decide) (by decide) (by decide) (by decide)

/-- C4: every well-formed header `"<type> <N>\0"` (one space, decimal `N`
representable in Go's `int`) parses to exactly `{type, N}`, and a header
segment lacking exactly one space before the NUL, or whose second field does
not parse as an integer, fails fatally. -/
theorem claim_C4 (ty ds content : List Nat) (rest rest2 : ByteStream)
    (hty : ∀ b ∈ ty, b ≠ 0 ∧ b ≠ 32)
    (hds1 : ds ≠ []) (hds2 : ∀ b ∈ ds, isDigitByte b)
    (hds3 : (decimalValue ds : Int) ≤ int64Max)
    (hc : ∀ b ∈ content, b ≠ 0) :
    parseObjectHeader (ty ++ 32 :: ds ++ 0 :: rest) =
      some (⟨ty, (decimalValue ds : Int)⟩, rest) ∧
    (content.count 32 ≠ 1 ∨ atoi ((splitOnByte 32 content).getD 1 []) = none →
      parseObjectHeader (content ++ 0 :: rest2) = none) :=
  ⟨parseObjectHeader_spec ty ds rest hty hds1 hds2 hds3,
    fun hbad => parseObjectHeader_fail content rest2 hc hbad⟩

/-- Witness for C4 at the spec's scenario `b"blob 5\0hello"` (parses to
`{blob, 5}` with the body left on the stream) and at the spaceless segment
`b"blob\0"` (fails). -/
theorem claim_C4_witness :
    parseObjectHeader (strBytes "blob" ++ 32 :: strBytes "5" ++ 0 :: strBytes "hello") =
      some (⟨strBytes "blob", 5⟩, strBytes "hello") ∧
    parseObjectHeader (strBytes "blob" ++ 0 :: []) = none := by
  have h := claim_C4 (strBytes "blob") (strBytes "5") (strBytes "blob")
    (strBytes "hello") [] (by decide) (by decide) (by decide) (by decide) (by decide)
  exact ⟨h.1.trans (by decide), h.2 (by decide)⟩

/-- C7: the commit decoder reads exactly the declared number of bytes and
renders them verbatim — no truncation, no parsing of the commit fields. -/
theorem claim_C7 (body rest : ByteStream) :
    printCommitContent (body ++ rest) (body.length : Int) = some (body, rest) := by
  unfold printCommitContent scanCountBytes
  simp [scanCountBytesAux_exact]

/-- C8: for a blob of declared length `N > 3072`, the decoder consumes exactly
the 3072-byte prefix of the body; everything after it on the stream
(the remaining `N - 3072` body bytes included) is never read. -/
theorem claim_C8 (body rest : ByteStream) (N : Int)
    (h1 : body.length = 3072) (h2 : N > 3072) :
    printBlobContent (body ++ rest) N = some (body ++ truncNotice, rest) :=
  printBlobContent_gt body rest N h1 h2

/-- Witness for C8 at the spec's scenario: `blob 4000` with exactly 4000 bytes
supplied — 3072 are consumed and the remaining 928 are left unread. -/
theorem claim_C8_witness :
    printBlobContent (List.replicate 3072 7 ++ List.replicate 928 8) 4000 =
      some (List.replicate 3072 7 ++ truncNotice, List.replicate 928 8) :=
  claim_C8 (List.replicate 3072 7) (List.replicate 928 8) 4000 (by rw [List.length_replicate]) (by decide)

/-- C9: `scanCountBytes` aborts on any stream shorter than the requested
count whatever its `throwOnEOF` argument is, and its result never depends on
that argument (`true` is hard-coded at the per-byte read). -/
theorem claim_C9 (s : ByteStream) (n : Int) (b : Bool)
    (h : (s.length : Int) < n) :
    scanCountBytes s n b = none ∧ scanCountBytes s n b = scanCountBytes s n true := by
  refine ⟨?_, rfl⟩
  unfold scanCountBytes
  apply scanCountBytesAux_short
  omega

/-- Witness for C9: a one-byte stream with count 2 and `throwOnEOF = false`
still aborts. -/
theorem claim_C9_witness :
    scanCountBytes [1] 2 false = none ∧
    scanCountBytes [1] 2 false = scanCountBytes [1] 2 true :=
  claim_C9 [1] 2 false (by decide)

/-- C10: for a negative declared length the read-exact loop runs zero times,
so the blob decoder and the commit decoder both read nothing, succeed, and
print the empty string (and the blob decoder appends no truncation notice). -/
theorem claim_C10 (s : ByteStream) (N : Int) (h : N < 0) :
    printBlobContent s N = some ([], s) ∧ printCommitContent s N = some ([], s) := by
  have hgt : ¬(N > TruncatedSize) := by unfold TruncatedSize; omega
  have htn : N.toNat = 0 := by omega
  constructor
  · unfold printBlobContent scanCountBytes
    simp [hgt, htn, scanCountBytesAux]
  · unfold printCommitContent scanCountBytes
    simp [htn, scanCountBytesAux]

/-- Witness for C10 at declared length `-1` on a nonempty stream. -/
theorem claim_C10_witness :
    printBlobContent [5] (-1) = some ([], [5]) ∧
    printCommitContent [5] (-1) = some ([], [5]) :=
  claim_C10 [5] (-1) (by decide)

/-- The byte encoding of one tree entry: `"<mode> <name>\0"` then the raw
hash bytes. -/
def encodeTreeEntry (mode name sha : List Nat) : ByteStream :=
  mode ++ 32 :: name ++ 0 :: sha

/-- The byte encoding of a whole tree body: the entries in order, then end of
stream. -/
def encodeTree (es : List (List Nat × List Nat × List Nat)) : ByteStream :=
  (es.map fun e => encodeTreeEntry e.1 e.2.1 e.2.2).flatten

/-- Hex encoding doubles the length. -/
theorem hexEncode_length (bs : List Nat) : (hexEncode bs).length = 2 * bs.length := by
  induction bs with
  | nil => simp [hexEncode]
  | cons b bs' ih =>
    simp [hexEncode] at ih ⊢
    omega

/-- `hexDigit` of a nibble is a lowercase hex character. -/
theorem hexDigit_char (n : Nat) (h : n < 16) :
    (48 ≤ hexDigit n ∧ hexDigit n ≤ 57) ∨ (97 ≤ hexDigit n ∧ hexDigit n ≤ 102) := by
  unfold hexDigit
  by_cases h10 : n < 10
  · left; simp [h10]; omega
  · right; simp [h10]; omega

/-- Hex encoding of genuine bytes yields only lowercase hex characters. -/
theorem hexEncode_chars (bs : List Nat) (h : ∀ b ∈ bs, b < 256) :
    ∀ c ∈ hexEncode bs, (48 ≤ c ∧ c ≤ 57) ∨ (97 ≤ c ∧ c ≤ 102) := by
  intro c hc
  simp only [hexEncode, List.mem_flatten, List.mem_map] at hc
  obtain ⟨l, ⟨b, hb, hl⟩, hcl⟩ := hc
  subst hl
  have hb256 := h b hb
  rcases List.mem_cons.mp hcl with h1 | h1
  · subst h1
    exact hexDigit_char (b / 16) (by omega)
  · rcases List.mem_cons.mp h1 with h2 | h2
    · subst h2
      exact hexDigit_char (b % 16) (by omega)
    · simp at h2

/-- The tree decoder on a well-formed tree body: one record per entry, in
stream order, the hash rendered in hex; the loop then terminates cleanly on
the empty read at end of stream. -/
theorem printTreeContent_spec (es : List (List Nat × List Nat × List Nat))
    (h : ∀ e ∈ es, (∀ b ∈ e.1, b ≠ 0 ∧ b ≠ 32) ∧ (∀ b ∈ e.2.1, b ≠ 0 ∧ b ≠ 32) ∧
      e.2.2.length = 20) :
    printTreeContent (encodeTree es) =
      (es.map fun e => ⟨e.1, e.2.1, hexEncode e.2.2⟩, some []) := by
  induction es with
  | nil =>
    rw [printTreeContent]
    simp [encodeTree, scanBytesUntilDelimiter]
  | cons e es' ih =>
    obtain ⟨m, n, sha⟩ := e
    obtain ⟨hm, hn, hsha⟩ := h (m, n, sha) (by simp)
    have hpre : ∀ b ∈ m ++ 32 :: n, b ≠ 0 := by
      intro b hb
      rcases List.mem_append.mp hb with h1 | h1
      · exact (hm b h1).1
      · rcases List.mem_cons.mp h1 with h1 | h1
        · omega
        · exact (hn b h1).1
    have hstream : encodeTree ((m, n, sha) :: es') =
        (m ++ 32 :: n) ++ 0 :: (sha ++ encodeTree es') := by
      simp [encodeTree, encodeTreeEntry]
    have hscan := scanUntilDelim_hit (m ++ 32 :: n) (sha ++ encodeTree es') 0 false hpre
    have hsplit : splitOnByte 32 (m ++ 32 :: n) = [m, n] := by
      rw [splitOnByte_cons_sep 32 m n (fun x hx => (hm x hx).2),
        splitOnByte_no_sep 32 n (fun x hx => (hn x hx).2)]
    have hcount : scanCountBytes (sha ++ encodeTree es') (ObjectShaLength : Int) true =
        some (sha, encodeTree es') := by
      unfold scanCountBytes
      have : ((ObjectShaLength : Int)).toNat = sha.length := by
        rw [hsha]; rfl
      rw [this, scanCountBytesAux_exact]
    rw [printTreeContent, hstream, hscan]
    have hne : ¬((m ++ 32 :: n) ++ [0] = ([] : List Nat)) := by simp
    simp only [hne, dite_false, List.getLast?_concat, List.dropLast_concat, hsplit,
      ne_eq, not_true_eq_false, if_false]
    rw [if_neg (by simp : ¬¬([m, n] : List (List Nat)).length = 2)]
    split
    · rename_i heq
      rw [hcount] at heq
      simp at heq
    · rename_i objectShaBytes rest2 heq
      rw [hcount] at heq
      simp at heq
      obtain ⟨hsha', hrest'⟩ := heq
      subst hsha'
      subst hrest'
      simp [ih (fun e he => h e (by simp [he]))]

/-- C5: a well-formed tree body (segments `"<mode> <name>\0"` each followed by
20 raw hash bytes, then end of stream) decodes to one `{mode, name, hexHash}`
record per entry, in stream order, with `hexHash` the 40-character lowercase
hex of the 20 raw bytes, and the loop terminates cleanly on the empty
read-until-NUL at end of stream; a segment that does not end in NUL, or whose
pre-NUL part does not hold exactly one space, panics. -/
theorem claim_C5 (es : List (List Nat × List Nat × List Nat))
    (h : ∀ e ∈ es, (∀ b ∈ e.1, b ≠ 0 ∧ b ≠ 32) ∧ (∀ b ∈ e.2.1, b ≠ 0 ∧ b ≠ 32) ∧
      e.2.2.length = 20 ∧ ∀ b ∈ e.2.2, b < 256) :
    printTreeContent (encodeTree es) =
      (es.map fun e => ⟨e.1, e.2.1, hexEncode e.2.2⟩, some []) ∧
    (∀ e ∈ es, (hexEncode e.2.2).length = 40 ∧
      ∀ c ∈ hexEncode e.2.2, (48 ≤ c ∧ c ≤ 57) ∨ (97 ≤ c ∧ c ≤ 102)) ∧
    (∀ seg : List Nat, seg ≠ [] → (∀ b ∈ seg, b ≠ 0) →
      printTreeContent seg = ([], none)) ∧
    (∀ content rest2 : List Nat, (∀ b ∈ content, b ≠ 0) → content.count 32 ≠ 1 →
      printTreeContent (content ++ 0 :: rest2) = ([], none)) := by
  refine ⟨printTreeContent_spec es (fun e he => ⟨(h e he).1, (h e he).2.1, (h e he).2.2.1⟩),
    ?_, ?_, ?_⟩
  · intro e he
    refine ⟨?_, hexEncode_chars e.2.2 (h e he).2.2.2⟩
    rw [hexEncode_length, (h e he).2.2.1]
  · intro seg hne hseg
    have hscan := scanUntilDelim_clean_eof seg 0 hseg
    have hlast : seg.getLast? = some (seg.getLast hne) := List.getLast?_eq_getLast seg hne
    have hlast0 : ¬(seg.getLast? = some 0) := by
      rw [hlast]
      intro hcontra
      exact hseg (seg.getLast hne) (List.getLast_mem hne) (by simpa using hcontra)
    rw [printTreeContent, hscan]
    simp [hne, hlast0]
  · intro content rest2 hc hcount
    have hscan := scanUntilDelim_hit content rest2 0 false hc
    have hlen : (splitOnByte 32 content).length ≠ 2 := by
      rw [splitOnByte_length]
      omega
    rw [printTreeContent, hscan]
    have hne : ¬(content ++ [0] = ([] : List Nat)) := by simp
    simp [hne, List.getLast?_concat, List.dropLast_concat, hlen]

/-- Witness for C5 at the spec's scenario: one entry `"100644 file.txt\0"`
followed by the 20 bytes `0x00..0x13`, whose hash renders as
`"000102030405060708090a0b0c0d0e0f10111213"`. -/
theorem claim_C5_witness :
    printTreeContent (encodeTree [(strBytes "100644", strBytes "file.txt", List.range 20)]) =
      ([⟨strBytes "100644", strBytes "file.txt", hexEncode (List.range 20)⟩], some []) ∧
    hexEncode (List.range 20) = strBytes "000102030405060708090a0b0c0d0e0f10111213" :=
  ⟨(claim_C5 [(strBytes "100644", strBytes "file.txt", List.range 20)] (by decide)).1,
    by decide⟩

/-- C6: for an object whose header type is outside blob/tree/commit, the
output is exactly the header summary followed by the fixed unsupported-kind
notice, and the stream is left at the start of the body (no body byte is
consumed); moreover, whenever a header parses, the printed output begins with
the header summary, whatever the object type. -/
theorem claim_C6 (ty : List Nat) (len : Int) (s rest : ByteStream)
    (hparse : parseObjectHeader s = some (⟨ty, len⟩, rest))
    (h1 : ty ≠ strBytes "blob") (h2 : ty ≠ strBytes "tree") (h3 : ty ≠ strBytes "commit") :
    printObjectFileContent s = (headerSummary ⟨ty, len⟩ ++ unsupportedNotice, some rest) ∧
    (∀ s2 rest2 : ByteStream, ∀ hdr : objectHeader,
      parseObjectHeader s2 = some (hdr, rest2) →
      ∃ t, (printObjectFileContent s2).1 = headerSummary hdr ++ t) := by
  constructor
  · unfold printObjectFileContent
    rw [hparse]
    simp [h1, h2, h3]
  · intro s2 rest2 hdr hp
    unfold printObjectFileContent
    rw [hp]
    dsimp only
    by_cases t1 : hdr.objectType = strBytes "tree"
    · rw [if_pos t1]
      exact ⟨renderTreeEntries (printTreeContent rest2).1, rfl⟩
    · rw [if_neg t1]
      by_cases t2 : hdr.objectType = strBytes "blob"
      · rw [if_pos t2]
        cases hb : printBlobContent rest2 hdr.length with
        | none => exact ⟨[], by simp⟩
        | some p =>
          obtain ⟨o, r⟩ := p
          exact ⟨o, rfl⟩
      · rw [if_neg t2]
        by_cases t3 : hdr.objectType = strBytes "commit"
        · rw [if_pos t3]
          cases hcm : printCommitContent rest2 hdr.length with
          | none => exact ⟨[], by simp⟩
          | some p =>
            obtain ⟨o, r⟩ := p
            exact ⟨o, rfl⟩
        · rw [if_neg t3]
          exact ⟨unsupportedNotice, rfl⟩

/-- Witness for C6 at the spec's scenario: a header of type `"tag"` — the
summary line then the unsupported notice are printed and the three body bytes
are left unconsumed. -/
theorem claim_C6_witness :
    printObjectFileContent (strBytes "tag 3" ++ 0 :: strBytes "xyz") =
      (headerSummary ⟨strBytes "tag", 3⟩ ++ unsupportedNotice, some (strBytes "xyz")) :=
  (claim_C6 (strBytes "tag") 3 (strBytes "tag 3" ++ 0 :: strBytes "xyz") (strBytes "xyz")
    (by decide) (by decide) (by decide) (by decide)).1

end GitScratch
